import Mathlib

/-!
Verification development for the MultiQueueProcessor dispatch core.

The definitions below are a shallow embedding of the C++ sources:

* `CancelCell` and the `CancellationToken*` operations embed the cancellation
  primitives of `ConsumerProcessor.h`;
* `drainFront` / `onValueProcessed` embed the task-completion handler of
  `ConsumerProcessor` (the revision using cancellation tokens), and
  `PState` / `PStep` / `PReach` give the reachable scheduling states of one
  `ConsumerProcessor` interacting with a thread pool;
* the `DM` structure and its operations embed the per-key `DataManager` of
  `DataManagerFavorSpeed.h` (the `DataManager<Key, Value>` revision whose
  `AddValue` snapshots the whole of `m_locators`);
* `Registry` / `Unsubscribe` embed the top-level `MultiQueueProcessor` registry;
* `Sys` composes the pieces into a one-consumer one-key system with an explicit
  sequential schedule.

Machine integers: the reference counters are `std::uint32_t`; every reachable
state manipulates them far below `2^32` (they count live cursors), so they are
modelled as `Nat`.
-/

namespace MQP

/-- Scheduler state of a `ConsumerProcessor`: `EState { free, processing }`. -/
inductive EState where
  | free
  | processing
deriving DecidableEq, Repr

/-- Model of the `shared_ptr<bool>` cell owned by a `CancellationTokenSource`:
`destroyed` records whether the owning source has been destroyed (releasing the
`shared_ptr`), `flag` is the pointed-to bool that `Cancel` sets. A
`CancellationToken` holds only a `weak_ptr` to this cell. -/
structure CancelCell where
  destroyed : Bool
  flag : Bool
deriving DecidableEq, Repr

/-- Taken from `CancellationToken::IsCancellationRequested` in
`ConsumerProcessor.h`: it returns `m_isCancellationRequested.expired()`, which
holds exactly when the owning source has been destroyed. The pointed-to bool is
never read here. -/
def CancellationToken.IsCancellationRequested (c : CancelCell) : Bool :=
  c.destroyed

/-- Taken from `CancellationTokenSource::Cancel`:
`*m_isCancellationRequested = true`. -/
def CancellationTokenSource.Cancel (c : CancelCell) : CancelCell :=
  { c with flag := true }

/-- Taken from `CancellationTokenSource::IsCancellationRequested`:
it dereferences the shared bool. -/
def CancellationTokenSource.IsCancellationRequested (c : CancelCell) : Bool :=
  c.flag

/-- Destruction of the `CancellationTokenSource`: the `shared_ptr<bool>` is
released, so the `weak_ptr` held by every token expires. -/
def CancellationTokenSource.destroy (c : CancelCell) : CancelCell :=
  { c with destroyed := true }

/-- An entry of `ConsumerProcessor::m_tasks`: the identity of the queued task
and whether its captured `CancellationToken` reports cancellation at the moment
the queue is examined. -/
abbrev TaskEntry := Nat × Bool

/-- The while-loop at the head of `ConsumerProcessor::onValueProcessed`: pop
entries from the front of `m_tasks`, skipping (and discarding) cancelled ones,
stopping at the first non-cancelled task, which is also popped. Returns that
task, if any, and the remaining queue. -/
def drainFront : List TaskEntry → Option Nat × List TaskEntry
  | [] => (Option.none, [])
  | (t, c) :: rest => if c then drainFront rest else (some t, rest)

/-- Result of `ConsumerProcessor::onValueProcessed`: the remaining `m_tasks`
queue, the new `m_state`, and the task posted to the thread pool, if any. -/
structure OnValueProcessedResult where
  remaining : List TaskEntry
  state : EState
  posted : Option Nat
deriving DecidableEq, Repr

/-- Taken from `ConsumerProcessor::onValueProcessed` (the cancellation-token
revision of `ConsumerProcessor.h`): run the drain loop; afterwards, if
`m_tasks` is empty, set `m_state = free` and return without posting; otherwise
post the drained-out task and stay `processing`. Note that the emptiness test
is performed after the first non-cancelled task has already been removed from
the queue, so a non-cancelled task that was the last element is dropped. -/
def onValueProcessed (tasks : List TaskEntry) : OnValueProcessedResult :=
  let r := drainFront tasks
  if r.2.isEmpty then ⟨r.2, EState.free, Option.none⟩
  else ⟨r.2, EState.processing, r.1⟩

/-- Scheduling-relevant state of one `ConsumerProcessor`: `m_state`, the
`m_tasks` queue, and the number of tasks submitted to the thread pool and not
yet completed. -/
structure PState where
  state : EState
  tasks : List TaskEntry
  inFlight : Nat
deriving DecidableEq, Repr

/-- One step of the system acting on a `ConsumerProcessor`:
`onNewValueAvailable` with a non-cancelled token while `processing` queues the
created task; with a non-cancelled token while `free` it switches to
`processing` and posts the task (a cancelled token makes the handler return
without effect); destruction of a `CancellationTokenSource` may flip a queued
entry's token status to cancelled; completion of an in-flight task runs
`onValueProcessed`. -/
inductive PStep : PState → PState → Prop where
  | newValueBusy (s : PState) (t : Nat) (hs : s.state = EState.processing) :
      PStep s { s with tasks := s.tasks ++ [(t, false)] }
  | newValueFree (s : PState) (hs : s.state = EState.free) :
      PStep s { state := EState.processing, tasks := s.tasks, inFlight := s.inFlight + 1 }
  | cancelAt (s : PState) (i t : Nat) (b : Bool) (h : s.tasks.get? i = some (t, b)) :
      PStep s { s with tasks := s.tasks.set i (t, true) }
  | complete (s : PState) (h : 1 ≤ s.inFlight) :
      PStep s { state := (onValueProcessed s.tasks).state,
                tasks := (onValueProcessed s.tasks).remaining,
                inFlight := s.inFlight - 1 +
                  (if (onValueProcessed s.tasks).posted.isSome then 1 else 0) }

/-- Reachable scheduling states of a `ConsumerProcessor`, starting `free` with
no queued tasks and no submitted task. -/
inductive PReach : PState → Prop where
  | init : PReach ⟨EState.free, [], 0⟩
  | step {s s' : PState} : PReach s → PStep s s' → PReach s'

theorem onValueProcessed_state_of_posted (tasks : List TaskEntry)
    (h : (onValueProcessed tasks).posted.isSome) :
    (onValueProcessed tasks).state = EState.processing := by
  unfold onValueProcessed at *
  by_cases hr : (drainFront tasks).2.isEmpty <;> simp [hr] at h ⊢

/-- C10: `CancellationToken::IsCancellationRequested()` returns true iff the
`CancellationTokenSource` the token was obtained from has been destroyed;
`Cancel()` on a live source sets the source's internal flag but is never
observed through any token, so a token-guarded task is not skipped after
`Cancel()` until the source object itself is destroyed. -/
theorem C10_token_observes_only_destruction (c : CancelCell) :
    CancellationToken.IsCancellationRequested c = c.destroyed ∧
    CancellationToken.IsCancellationRequested (CancellationTokenSource.Cancel c) = c.destroyed ∧
    CancellationTokenSource.IsCancellationRequested (CancellationTokenSource.Cancel c) = true ∧
    CancellationToken.IsCancellationRequested (CancellationTokenSource.destroy c) = true := by
  refine ⟨rfl, rfl, rfl, rfl⟩

/-- C3: evaluation of `onValueProcessed` at a pending queue holding exactly one
non-cancelled task. The code pops that task, then finds `m_tasks` empty, sets
the state to `free` and returns without posting anything: the popped task is
lost, contradicting the claim that the first non-cancelled task is submitted
and the state stays `processing`. -/
theorem C3_last_pending_task_dropped :
    onValueProcessed [(0, false)] =
      ⟨[], EState.free, Option.none⟩ ∧
    onValueProcessed [(7, true), (3, false)] =
      ⟨[], EState.free, Option.none⟩ ∧
    onValueProcessed [(4, false), (9, true)] =
      ⟨[(9, true)], EState.processing, some 4⟩ := by
  refine ⟨rfl, rfl, rfl⟩

/-- C4: in every reachable state of a `ConsumerProcessor`, at most one task of
that processor is submitted-but-not-completed, and whenever one is in flight
the state is `processing`. -/
theorem C4_at_most_one_in_flight {s : PState} (h : PReach s) :
    s.inFlight ≤ 1 ∧ (s.inFlight = 1 → s.state = EState.processing) := by
  induction h with
  | init => exact ⟨by decide, by intro h; cases h⟩
  | @step s s' hr hs ih =>
    cases hs with
    | newValueBusy t hst =>
      exact ⟨ih.1, fun _ => hst⟩
    | newValueFree hst =>
      have h0 : s.inFlight = 0 := by
        rcases Nat.lt_or_ge s.inFlight 1 with h1 | h1
        · omega
        · have := ih.2 (by omega)
          rw [hst] at this
          cases this
      simp [h0]
    | cancelAt i t b hget =>
      exact ih
    | complete hin =>
      have h1 : s.inFlight = 1 := by omega
      constructor
      · by_cases hp : (onValueProcessed s.tasks).posted.isSome <;> simp [hp, h1]
      · intro hflight
        by_cases hp : (onValueProcessed s.tasks).posted.isSome
        · exact onValueProcessed_state_of_posted s.tasks hp
        · simp [hp, h1] at hflight

/-- Witness for C4: the invariant holds at the initial state. -/
theorem C4_at_most_one_in_flight_witness :
    (⟨EState.free, [], 0⟩ : PState).inFlight ≤ 1 ∧
    ((⟨EState.free, [], 0⟩ : PState).inFlight = 1 →
      (⟨EState.free, [], 0⟩ : PState).state = EState.processing) :=
  C4_at_most_one_in_flight PReach.init

/-- A log entry of `DataManager::m_values`: the stored value together with its
reference counter (`std::tuple<Value, std::uint32_t>`). -/
abbrev Entry (V : Type) := V × Nat

/-- A `Locator` (cursor): its position inside the per-key log, where
`Option.none` stands for the `m_values.end()` iterator, plus `birth`, a ghost
field recording how many values had ever been enqueued to this `DataManager`
when the locator was created. `birth` never influences any computation. -/
structure Loc where
  pos : Option Nat
  birth : Nat
deriving DecidableEq, Repr

/-- State of a per-key `DataManager` (`DataManagerFavorSpeed.h`, the
`DataManager<Key, Value>` revision): the log `m_values` and the registered
cursors `m_locators`, plus two ghost fields used only in specifications:
`dropped` counts the entries reclaimed so far and `hist` lists every value ever
enqueued, in order. The entry of `values` at index `j` holds the
`(dropped + j)`-th element of `hist`. Since `std::list` iterators are stable,
a position is modelled as an index into `values`, renumbered by `- k` whenever
reclamation erases a length-`k` prefix. -/
structure DM (V : Type) where
  values : List (Entry V)
  locators : List Loc
  dropped : Nat
  hist : List V
deriving DecidableEq, Repr

/-- Reference counter of the log entry at index `j` (0 when out of range). -/
def rcAt {V : Type} (vs : List (Entry V)) (j : Nat) : Nat :=
  ((vs.get? j).map Prod.snd).getD 0

/-- Number of registered locators standing exactly at index `j`. -/
def countAt (ls : List Loc) (j : Nat) : Nat :=
  ls.countP (fun l => l.pos = some j)

/-- Apply `f` to the reference counter of the entry at index `j`
(`++counter` / `--counter` in the C++). -/
def updateRC {V : Type} : List (Entry V) → Nat → (Nat → Nat) → List (Entry V)
  | [], _, _ => []
  | e :: tl, 0, f => (e.1, f e.2) :: tl
  | e :: tl, j + 1, f => e :: updateRC tl j f

/-- Length of the maximal prefix of the log whose reference counters are all
zero. -/
def leadZeros {V : Type} : List (Entry V) → Nat
  | [] => 0
  | e :: tl => if e.2 = 0 then leadZeros tl + 1 else 0

/-- Taken from `DataManager::collectUnusedValues`: erase the maximal prefix of
`m_values` whose entries all have a zero counter. Erasing earlier entries keeps
`std::list` iterators valid, so an index-`j` position becomes `j - k`; the
ghost `dropped` counter grows by `k`. -/
def collectUnusedValues {V : Type} (s : DM V) : DM V :=
  let k := leadZeros s.values
  { values := s.values.drop k
    locators := s.locators.map (fun l => { l with pos := l.pos.map (fun p => p - k) })
    dropped := s.dropped + k
    hist := s.hist }

/-- Number of locators standing at the end iterator (those `AddValue` will
advance). -/
def advancedCount {V : Type} (s : DM V) : Nat :=
  s.locators.countP (fun l => l.pos = Option.none)

/-- Taken from `DataManager::AddValue`: under the lock, append
`(value, counter = 0)` to `m_values`; every locator whose position equals
`m_values.end()` is set to the new last entry, incrementing that entry's
counter once per advanced locator (so the new entry's counter ends up at the
number of advanced locators); the ghost history grows by the value. -/
def AddValue {V : Type} (s : DM V) (v : V) : DM V :=
  let n := s.values.length
  { values := s.values ++ [(v, advancedCount s)]
    locators := s.locators.map
      (fun l => if l.pos = Option.none then { l with pos := some n } else l)
    dropped := s.dropped
    hist := s.hist ++ [v] }

/-- Indices of the locators `AddValue` advances: exactly those standing at the
end iterator before the append. -/
def advancedLocators {V : Type} (s : DM V) : List Nat :=
  (List.range s.locators.length).filter
    (fun i => ((s.locators.get? i).map (fun l => l.pos.isNone)).getD false)

/-- Indices of the locators whose `onNewValueAvailable` hook `AddValue`
invokes after releasing the lock: `locatorsForUpdate = m_locators`, i.e. every
registered locator, advanced or not (`DataManagerFavorSpeed.h`, the
`DataManager<Key, Value>` revision). -/
def notifiedLocators {V : Type} (s : DM V) : List Nat :=
  List.range s.locators.length

/-- Taken from `DataManager::CreateValueSource`: register a fresh locator at
`m_values.end()` regardless of the log contents; no counter is touched. The
ghost birth is the number of values ever enqueued so far. -/
def CreateValueSource {V : Type} (s : DM V) : DM V :=
  { s with locators := s.locators ++ [⟨Option.none, s.hist.length⟩] }

/-- Taken from `Locator::HasValue` / `DataManager::hasValue`: whether locator
`i`'s position differs from `m_values.end()`. -/
def hasValueAt {V : Type} (s : DM V) (i : Nat) : Bool :=
  ((s.locators.get? i).map (fun l => l.pos.isSome)).getD false

/-- Taken from `Locator::GetValue` / `DataManager::getValue`: the stored value
at locator `i`'s position (`Option.none` on the past-the-end position, where
the C++ asserts). -/
def getValueAt {V : Type} (s : DM V) (i : Nat) : Option V :=
  (s.locators.get? i).bind (fun l => l.pos.bind (fun p => (s.values.get? p).map Prod.fst))

/-- Taken from `DataManager::moveNext` on locator `i`: decrement the counter
of the current entry, advance the position (to the end iterator when the
current entry was last, incrementing the next entry's counter otherwise), run
`collectUnusedValues`, and return whether the position still denotes an entry.
Outside the precondition (the C++ asserts `position != end`) the state is
returned unchanged. -/
def moveNext {V : Type} (s : DM V) (i : Nat) : DM V × Bool :=
  match s.locators.get? i with
  | Option.none => (s, false)
  | some l =>
    match l.pos with
    | Option.none => (s, false)
    | some p =>
      let vs1 := updateRC s.values p (fun c => c - 1)
      if p + 1 < s.values.length then
        (collectUnusedValues
          { s with
            values := updateRC vs1 (p + 1) (fun c => c + 1)
            locators := s.locators.set i { l with pos := some (p + 1) } },
         true)
      else
        (collectUnusedValues
          { s with
            values := vs1
            locators := s.locators.set i { l with pos := Option.none } },
         false)

/-- Teardown of locator `i`, as one composite operation: `Locator::Stop` calls
`DataManager::unsubscribeLocator`, which only erases the locator from
`m_locators` (counters untouched); when the last strong reference is dropped
the `Locator` destructor calls `DataManager::unregisterLocator`, which
decrements the counter at the locator's position, if any, and runs
`collectUnusedValues`. -/
def removeLocator {V : Type} (s : DM V) (i : Nat) : DM V :=
  match s.locators.get? i with
  | Option.none => s
  | some l =>
    let s1 := { s with locators := s.locators.eraseIdx i }
    match l.pos with
    | Option.none => s1
    | some p =>
      collectUnusedValues { s1 with values := updateRC s1.values p (fun c => c - 1) }

/-- DataManager states reachable from the empty manager by `AddValue`,
`CreateValueSource`, `moveNext` (under its precondition) and locator
teardown. -/
inductive DMReach {V : Type} : DM V → Prop where
  | init : DMReach ⟨[], [], 0, []⟩
  | add {s : DM V} (v : V) : DMReach s → DMReach (AddValue s v)
  | create {s : DM V} : DMReach s → DMReach (CreateValueSource s)
  | move {s : DM V} (i : Nat) {l : Loc} {p : Nat}
      (hl : s.locators.get? i = some l) (hp : l.pos = some p) :
      DMReach s → DMReach (moveNext s i).1
  | remove {s : DM V} (i : Nat) : DMReach s → DMReach (removeLocator s i)

theorem rcAt_of_length_le {V : Type} {vs : List (Entry V)} {j : Nat}
    (h : vs.length ≤ j) : rcAt vs j = 0 := by
  unfold rcAt
  rw [List.get?_eq_none.mpr h]
  rfl

theorem rcAt_append_left {V : Type} {vs ws : List (Entry V)} {j : Nat}
    (h : j < vs.length) : rcAt (vs ++ ws) j = rcAt vs j := by
  unfold rcAt
  rw [List.get?_append h]

theorem rcAt_append_self {V : Type} (vs : List (Entry V)) (e : Entry V) :
    rcAt (vs ++ [e]) vs.length = e.2 := by
  unfold rcAt
  rw [List.get?_concat_length]
  rfl

theorem updateRC_length {V : Type} (vs : List (Entry V)) (j : Nat) (f : Nat → Nat) :
    (updateRC vs j f).length = vs.length := by
  induction vs generalizing j with
  | nil => rfl
  | cons e tl ih =>
    cases j with
    | zero => rfl
    | succ j => simpa [updateRC] using ih j

theorem get?_updateRC {V : Type} (vs : List (Entry V)) (j j' : Nat) (f : Nat → Nat) :
    (updateRC vs j f).get? j' =
      (vs.get? j').map (fun e => if j' = j then (e.1, f e.2) else e) := by
  induction vs generalizing j j' with
  | nil => rfl
  | cons e tl ih =>
    cases j with
    | zero =>
      cases j' with
      | zero => rfl
      | succ j' => simp [updateRC]
    | succ j =>
      cases j' with
      | zero => simp [updateRC]
      | succ j' => simpa [updateRC] using ih j j'

theorem rcAt_updateRC_self {V : Type} {vs : List (Entry V)} {j : Nat} {f : Nat → Nat}
    (h : j < vs.length) : rcAt (updateRC vs j f) j = f (rcAt vs j) := by
  unfold rcAt
  rw [get?_updateRC]
  rcases List.get?_eq_get h with hg
  rw [hg]
  simp

theorem rcAt_updateRC_ne {V : Type} {vs : List (Entry V)} {j j' : Nat} {f : Nat → Nat}
    (h : j' ≠ j) : rcAt (updateRC vs j f) j' = rcAt vs j' := by
  unfold rcAt
  rw [get?_updateRC]
  cases hg : vs.get? j' with
  | none => rfl
  | some e => simp [h]

theorem rcAt_drop {V : Type} (vs : List (Entry V)) (k j : Nat) :
    rcAt (vs.drop k) j = rcAt vs (k + j) := by
  unfold rcAt
  rw [List.get?_drop]

theorem leadZeros_le {V : Type} (vs : List (Entry V)) : leadZeros vs ≤ vs.length := by
  induction vs with
  | nil => exact Nat.le_refl 0
  | cons e tl ih =>
    unfold leadZeros
    by_cases h : e.2 = 0 <;> simp [h] <;> omega

theorem rcAt_lt_leadZeros {V : Type} {vs : List (Entry V)} {j : Nat}
    (h : j < leadZeros vs) : rcAt vs j = 0 := by
  induction vs generalizing j with
  | nil => rfl
  | cons e tl ih =>
    unfold leadZeros at h
    by_cases he : e.2 = 0
    · simp [he] at h
      cases j with
      | zero => simpa [rcAt] using he
      | succ j =>
        have := ih (j := j) (by omega)
        simpa [rcAt] using this
    · simp [he] at h

theorem leadZeros_maximal {V : Type} (vs : List (Entry V)) :
    leadZeros vs = vs.length ∨ rcAt vs (leadZeros vs) ≠ 0 := by
  induction vs with
  | nil => exact Or.inl rfl
  | cons e tl ih =>
    unfold leadZeros
    by_cases he : e.2 = 0
    · rcases ih with h | h
      · exact Or.inl (by simp [he, h])
      · right
        simpa [he, rcAt] using h
    · right
      simpa [he, rcAt] using he

theorem countAt_nil (j : Nat) : countAt [] j = 0 := rfl

theorem countAt_cons (l : Loc) (tl : List Loc) (j : Nat) :
    countAt (l :: tl) j = countAt tl j + (if l.pos = some j then 1 else 0) := by
  unfold countAt
  rw [List.countP_cons]
  by_cases h : l.pos = some j <;> simp [h]

theorem countAt_append (ls ms : List Loc) (j : Nat) :
    countAt (ls ++ ms) j = countAt ls j + countAt ms j := by
  unfold countAt
  rw [List.countP_append]

theorem countAt_pos_of_get? {ls : List Loc} {i : Nat} {l : Loc} {j : Nat}
    (h : ls.get? i = some l) (hp : l.pos = some j) : 0 < countAt ls j := by
  unfold countAt
  refine List.countP_pos.mpr ⟨l, List.get?_mem h, ?_⟩
  simp [hp]

theorem countAt_set {ls : List Loc} {i : Nat} {l : Loc} (a : Loc) (j : Nat)
    (h : ls.get? i = some l) :
    countAt (ls.set i a) j + (if l.pos = some j then 1 else 0) =
      countAt ls j + (if a.pos = some j then 1 else 0) := by
  induction ls generalizing i with
  | nil => cases h
  | cons hd tl ih =>
    cases i with
    | zero =>
      cases h
      simp [List.set, countAt_cons]
      omega
    | succ i =>
      have h' : tl.get? i = some l := h
      simp only [List.set, countAt_cons]
      have := ih h'
      omega

theorem countAt_eraseIdx {ls : List Loc} {i : Nat} {l : Loc} (j : Nat)
    (h : ls.get? i = some l) :
    countAt (ls.eraseIdx i) j + (if l.pos = some j then 1 else 0) = countAt ls j := by
  induction ls generalizing i with
  | nil => cases h
  | cons hd tl ih =>
    cases i with
    | zero =>
      cases h
      simp [List.eraseIdx, countAt_cons]
    | succ i =>
      have h' : tl.get? i = some l := h
      simp only [List.eraseIdx, countAt_cons]
      have := ih h'
      omega

theorem countAt_pos_of_mem {ls : List Loc} {l : Loc} {j : Nat}
    (h : l ∈ ls) (hp : l.pos = some j) : 0 < countAt ls j := by
  unfold countAt
  refine List.countP_pos.mpr ⟨l, h, ?_⟩
  simp [hp]

/-- The central DataManager invariant: each entry's counter equals the number
of registered locators standing at it; entry `j` of the log holds element
`dropped + j` of the ghost history; every locator stands at or after the
history point recorded at its creation; births never exceed the history. -/
structure DMInv {V : Type} (s : DM V) : Prop where
  rc : ∀ j, rcAt s.values j = countAt s.locators j
  ghostLen : s.dropped + s.values.length = s.hist.length
  ghostVal : ∀ j e, s.values.get? j = some e → s.hist.get? (s.dropped + j) = some e.1
  birthLe : ∀ l ∈ s.locators, ∀ p, l.pos = some p → l.birth ≤ s.dropped + p
  birthBound : ∀ l ∈ s.locators, l.birth ≤ s.hist.length

theorem DMInv.posLt {V : Type} {s : DM V} (hs : DMInv s) {l : Loc} {p : Nat}
    (hm : l ∈ s.locators) (hp : l.pos = some p) : p < s.values.length := by
  by_contra h
  have h0 : rcAt s.values p = 0 := rcAt_of_length_le (by omega)
  have hc := hs.rc p
  have hpos := countAt_pos_of_mem hm hp
  omega

theorem DMInv.posGeLead {V : Type} {s : DM V} (hs : DMInv s) {l : Loc} {p : Nat}
    (hm : l ∈ s.locators) (hp : l.pos = some p) : leadZeros s.values ≤ p := by
  by_contra h
  have h0 : rcAt s.values p = 0 := rcAt_lt_leadZeros (by omega)
  have hc := hs.rc p
  have hpos := countAt_pos_of_mem hm hp
  omega

theorem collectUnusedValues_def {V : Type} (s : DM V) :
    collectUnusedValues s =
      { values := s.values.drop (leadZeros s.values)
        locators := s.locators.map
          (fun l => { l with pos := l.pos.map (fun p => p - leadZeros s.values) })
        dropped := s.dropped + leadZeros s.values
        hist := s.hist } := rfl

theorem AddValue_def {V : Type} (s : DM V) (v : V) :
    AddValue s v =
      { values := s.values ++ [(v, advancedCount s)]
        locators := s.locators.map
          (fun l => if l.pos = Option.none then { l with pos := some s.values.length } else l)
        dropped := s.dropped
        hist := s.hist ++ [v] } := rfl

theorem DMInv_collect {V : Type} {s : DM V} (hs : DMInv s) :
    DMInv (collectUnusedValues s) := by
  have hkl := leadZeros_le s.values
  rw [collectUnusedValues_def]
  constructor
  · intro j
    dsimp only
    rw [rcAt_drop, hs.rc]
    unfold countAt
    rw [List.countP_map]
    apply List.countP_congr
    intro l hl
    cases hpl : l.pos with
    | none => simp [Function.comp, hpl]
    | some q =>
      have hge := hs.posGeLead hl hpl
      simp only [Function.comp, hpl, Option.map_some', decide_eq_true_eq]
      constructor
      · intro hq
        have hq' : q = leadZeros s.values + j := by simpa using hq
        have : q - leadZeros s.values = j := by omega
        exact congrArg some this
      · intro hq
        have hq' : q - leadZeros s.values = j := by simpa using hq
        have : q = leadZeros s.values + j := by omega
        exact congrArg some this
  · dsimp only
    rw [List.length_drop]
    have := hs.ghostLen
    omega
  · intro j e hj
    dsimp only at hj ⊢
    rw [List.get?_drop] at hj
    have h := hs.ghostVal _ _ hj
    rw [show s.dropped + leadZeros s.values + j = s.dropped + (leadZeros s.values + j) by omega]
    exact h
  · intro l hl p hp
    dsimp only at hl hp ⊢
    rcases List.mem_map.mp hl with ⟨l0, hl0, rfl⟩
    cases hp0 : l0.pos with
    | none => simp [hp0] at hp
    | some q =>
      simp only [hp0, Option.map_some', Option.some.injEq] at hp
      have hge := hs.posGeLead hl0 hp0
      have hble := hs.birthLe l0 hl0 q hp0
      dsimp only
      omega
  · intro l hl
    dsimp only at hl ⊢
    rcases List.mem_map.mp hl with ⟨l0, hl0, rfl⟩
    exact hs.birthBound l0 hl0

theorem DMInv_AddValue {V : Type} {s : DM V} (hs : DMInv s) (v : V) :
    DMInv (AddValue s v) := by
  have hnone : ∀ l ∈ s.locators, ¬ l.pos = some s.values.length := by
    intro l hl hcontra
    have := hs.posLt hl hcontra
    omega
  rw [AddValue_def]
  constructor
  · intro j
    dsimp only
    rcases Nat.lt_trichotomy j s.values.length with hlt | heq | hgt
    · rw [rcAt_append_left hlt, hs.rc]
      unfold countAt
      rw [List.countP_map]
      apply List.countP_congr
      intro l hl
      by_cases hp : l.pos = Option.none
      · simp [Function.comp, hp]
        omega
      · simp [Function.comp, hp]
    · subst heq
      rw [rcAt_append_self]
      unfold advancedCount countAt
      rw [List.countP_map]
      apply List.countP_congr
      intro l hl
      by_cases hp : l.pos = Option.none
      · simp [Function.comp, hp]
      · simp only [Function.comp, decide_eq_true_eq]
        rw [if_neg hp]
        constructor
        · intro hc
          exact absurd hc hp
        · intro hc
          exact absurd hc (hnone l hl)
    · rw [rcAt_of_length_le (by simp; omega)]
      symm
      unfold countAt
      rw [List.countP_map]
      apply List.countP_eq_zero.mpr
      intro l hl
      by_cases hp : l.pos = Option.none
      · simp [Function.comp, hp]
        omega
      · simp only [Function.comp, decide_eq_true_eq]
        rw [if_neg hp]
        intro hc
        have := hs.posLt hl hc
        omega
  · dsimp only
    have := hs.ghostLen
    simp
    omega
  · intro j e hj
    dsimp only at hj ⊢
    rcases Nat.lt_trichotomy j s.values.length with hlt | heq | hgt
    · rw [List.get?_append hlt] at hj
      have h := hs.ghostVal _ _ hj
      have hjl : s.dropped + j < s.hist.length := by
        have := hs.ghostLen
        omega
      rw [List.get?_append hjl]
      exact h
    · subst heq
      rw [List.get?_concat_length] at hj
      cases hj
      have hd : s.dropped + s.values.length = s.hist.length := hs.ghostLen
      rw [hd, List.get?_concat_length]
    · have hout : (s.values ++ [(v, advancedCount s)]).length ≤ j := by
        simp
        omega
      rw [List.get?_eq_none.mpr hout] at hj
      cases hj
  · intro l hl p hp
    dsimp only at hl hp ⊢
    rcases List.mem_map.mp hl with ⟨l0, hl0, rfl⟩
    by_cases hp0 : l0.pos = Option.none
    · rw [if_pos hp0] at hp ⊢
      simp only [Option.some.injEq] at hp
      have hb := hs.birthBound l0 hl0
      have hg := hs.ghostLen
      show l0.birth ≤ s.dropped + p
      omega
    · rw [if_neg hp0] at hp ⊢
      exact hs.birthLe l0 hl0 p hp
  · intro l hl
    dsimp only at hl ⊢
    rcases List.mem_map.mp hl with ⟨l0, hl0, rfl⟩
    have := hs.birthBound l0 hl0
    by_cases hp0 : l0.pos = Option.none <;> simp [hp0] <;> omega

theorem CreateValueSource_def {V : Type} (s : DM V) :
    CreateValueSource s =
      { values := s.values
        locators := s.locators ++ [⟨Option.none, s.hist.length⟩]
        dropped := s.dropped
        hist := s.hist } := rfl

theorem DMInv_CreateValueSource {V : Type} {s : DM V} (hs : DMInv s) :
    DMInv (CreateValueSource s) := by
  rw [CreateValueSource_def]
  constructor
  · intro j
    dsimp only
    rw [countAt_append, hs.rc]
    simp [countAt_cons, countAt_nil]
  · exact hs.ghostLen
  · exact hs.ghostVal
  · intro l hl p hp
    dsimp only at hl hp ⊢
    rcases List.mem_append.mp hl with h | h
    · exact hs.birthLe l h p hp
    · simp at h
      subst h
      simp at hp
  · intro l hl
    dsimp only at hl ⊢
    rcases List.mem_append.mp hl with h | h
    · exact hs.birthBound l h
    · simp at h
      subst h
      exact Nat.le_refl _

theorem get?_fst_updateRC {V : Type} (vs : List (Entry V)) (j : Nat) (f : Nat → Nat)
    (j' : Nat) :
    ((updateRC vs j f).get? j').map Prod.fst = (vs.get? j').map Prod.fst := by
  rw [get?_updateRC]
  cases vs.get? j' with
  | none => rfl
  | some e =>
    by_cases h : j' = j <;> simp [h]

theorem DMInv_moveNext {V : Type} {s : DM V} (hs : DMInv s) {i : Nat} {l : Loc}
    {p : Nat} (hl : s.locators.get? i = some l) (hp : l.pos = some p) :
    DMInv (moveNext s i).1 := by
  have hmem : l ∈ s.locators := List.get?_mem hl
  have hplt : p < s.values.length := hs.posLt hmem hp
  have hcpos : 0 < countAt s.locators p := countAt_pos_of_mem hmem hp
  by_cases h2 : p + 1 < s.values.length
  · have hred : (moveNext s i).1 =
        collectUnusedValues
          { s with
            values := updateRC (updateRC s.values p (fun c => c - 1)) (p + 1) (fun c => c + 1)
            locators := s.locators.set i { l with pos := some (p + 1) } } := by
      unfold moveNext
      rw [hl]
      simp [hp, h2]
    rw [hred]
    apply DMInv_collect
    have hset0 := fun j => countAt_set (l := l) { l with pos := some (p + 1) } j hl
    constructor
    · intro j
      dsimp only
      have hset := hset0 j
      rw [hp] at hset
      dsimp only at hset
      simp only [Option.some.injEq] at hset
      have hrc := hs.rc j
      rcases Nat.lt_trichotomy j p with hj | hj | hj
      · rw [rcAt_updateRC_ne (by omega), rcAt_updateRC_ne (by omega), hrc]
        rw [if_neg (by omega : ¬ p = j), if_neg (by omega : ¬ p + 1 = j)] at hset
        omega
      · subst hj
        rw [rcAt_updateRC_ne (by omega), rcAt_updateRC_self hplt]
        rw [if_pos rfl, if_neg (by omega : ¬ j + 1 = j)] at hset
        omega
      · by_cases hjp1 : j = p + 1
        · subst hjp1
          rw [rcAt_updateRC_self (by rw [updateRC_length]; omega), rcAt_updateRC_ne (by omega)]
          rw [if_neg (by omega : ¬ p = p + 1), if_pos rfl] at hset
          omega
        · rw [rcAt_updateRC_ne (by omega), rcAt_updateRC_ne (by omega), hrc]
          rw [if_neg (by omega : ¬ p = j), if_neg (by omega : ¬ p + 1 = j)] at hset
          omega
    · dsimp only
      rw [updateRC_length, updateRC_length]
      exact hs.ghostLen
    · intro j e hj
      dsimp only at hj ⊢
      have hfst : ((updateRC (updateRC s.values p (fun c => c - 1)) (p + 1)
          (fun c => c + 1)).get? j).map Prod.fst = (s.values.get? j).map Prod.fst := by
        rw [get?_fst_updateRC, get?_fst_updateRC]
      rw [hj] at hfst
      cases hv : s.values.get? j with
      | none => rw [hv] at hfst; cases hfst
      | some e0 =>
        rw [hv] at hfst
        have he : e0.1 = e.1 := by simpa using hfst.symm
        have := hs.ghostVal _ _ hv
        rw [← he]
        exact this
    · intro l1 hl1 q hq
      dsimp only at hl1 hq ⊢
      rcases List.mem_or_eq_of_mem_set hl1 with h | h
      · exact hs.birthLe l1 h q hq
      · subst h
        simp at hq
        have := hs.birthLe l hmem p hp
        show l.birth ≤ s.dropped + q
        omega
    · intro l1 hl1
      dsimp only at hl1 ⊢
      rcases List.mem_or_eq_of_mem_set hl1 with h | h
      · exact hs.birthBound l1 h
      · subst h
        exact hs.birthBound l hmem
  · have hred : (moveNext s i).1 =
        collectUnusedValues
          { s with
            values := updateRC s.values p (fun c => c - 1)
            locators := s.locators.set i { l with pos := Option.none } } := by
      unfold moveNext
      rw [hl]
      simp [hp, h2]
    rw [hred]
    apply DMInv_collect
    have hset0 := fun j => countAt_set (l := l) { l with pos := Option.none } j hl
    constructor
    · intro j
      dsimp only
      have hset := hset0 j
      rw [hp] at hset
      dsimp only at hset
      simp only [Option.some.injEq] at hset
      have hrc := hs.rc j
      rw [if_neg (by simp : ¬ (Option.none : Option Nat) = some j)] at hset
      by_cases hj : j = p
      · subst hj
        rw [rcAt_updateRC_self hplt]
        rw [if_pos rfl] at hset
        omega
      · rw [rcAt_updateRC_ne (by omega), hrc]
        rw [if_neg (by omega : ¬ p = j)] at hset
        omega
    · dsimp only
      rw [updateRC_length]
      exact hs.ghostLen
    · intro j e hj
      dsimp only at hj ⊢
      have hfst : ((updateRC s.values p (fun c => c - 1)).get? j).map Prod.fst =
          (s.values.get? j).map Prod.fst := get?_fst_updateRC _ _ _ _
      rw [hj] at hfst
      cases hv : s.values.get? j with
      | none => rw [hv] at hfst; cases hfst
      | some e0 =>
        rw [hv] at hfst
        have he : e0.1 = e.1 := by simpa using hfst.symm
        have := hs.ghostVal _ _ hv
        rw [← he]
        exact this
    · intro l1 hl1 q hq
      dsimp only at hl1 hq ⊢
      rcases List.mem_or_eq_of_mem_set hl1 with h | h
      · exact hs.birthLe l1 h q hq
      · subst h
        simp at hq
    · intro l1 hl1
      dsimp only at hl1 ⊢
      rcases List.mem_or_eq_of_mem_set hl1 with h | h
      · exact hs.birthBound l1 h
      · subst h
        exact hs.birthBound l hmem

theorem DMInv_removeLocator {V : Type} {s : DM V} (hs : DMInv s) (i : Nat) :
    DMInv (removeLocator s i) := by
  cases hl : s.locators.get? i with
  | none =>
    unfold removeLocator
    rw [hl]
    exact hs
  | some l =>
    have hmem : l ∈ s.locators := List.get?_mem hl
    cases hp : l.pos with
    | none =>
      have hred : removeLocator s i = { s with locators := s.locators.eraseIdx i } := by
        unfold removeLocator
        rw [hl]
        simp [hp]
      rw [hred]
      constructor
      · intro j
        dsimp only
        have he := countAt_eraseIdx (l := l) j hl
        rw [hp, if_neg (by simp : ¬ (Option.none : Option Nat) = some j)] at he
        rw [hs.rc]
        omega
      · exact hs.ghostLen
      · exact hs.ghostVal
      · intro l1 hl1 q hq
        exact hs.birthLe l1 (List.mem_of_mem_eraseIdx hl1) q hq
      · intro l1 hl1
        exact hs.birthBound l1 (List.mem_of_mem_eraseIdx hl1)
    | some p =>
      have hplt : p < s.values.length := hs.posLt hmem hp
      have hcpos : 0 < countAt s.locators p := countAt_pos_of_mem hmem hp
      have hred : removeLocator s i =
          collectUnusedValues
            { s with
              values := updateRC s.values p (fun c => c - 1)
              locators := s.locators.eraseIdx i } := by
        unfold removeLocator
        rw [hl]
        simp [hp]
      rw [hred]
      apply DMInv_collect
      constructor
      · intro j
        dsimp only
        have he := countAt_eraseIdx (l := l) j hl
        rw [hp] at he
        simp only [Option.some.injEq] at he
        have hrc := hs.rc j
        by_cases hj : j = p
        · subst hj
          rw [rcAt_updateRC_self hplt]
          rw [if_pos rfl] at he
          omega
        · rw [rcAt_updateRC_ne (by omega), hrc]
          rw [if_neg (by omega : ¬ p = j)] at he
          omega
      · dsimp only
        rw [updateRC_length]
        exact hs.ghostLen
      · intro j e hj
        have hfst : ((updateRC s.values p (fun c => c - 1)).get? j).map Prod.fst =
            (s.values.get? j).map Prod.fst := get?_fst_updateRC _ _ _ _
        rw [hj] at hfst
        cases hv : s.values.get? j with
        | none => rw [hv] at hfst; cases hfst
        | some e0 =>
          rw [hv] at hfst
          have he0 : e0.1 = e.1 := by simpa using hfst.symm
          have := hs.ghostVal _ _ hv
          rw [← he0]
          exact this
      · intro l1 hl1 q hq
        exact hs.birthLe l1 (List.mem_of_mem_eraseIdx hl1) q hq
      · intro l1 hl1
        exact hs.birthBound l1 (List.mem_of_mem_eraseIdx hl1)

theorem DMInv_ofReach {V : Type} {s : DM V} (h : DMReach s) : DMInv s := by
  induction h with
  | init =>
    constructor
    · intro j
      rfl
    · rfl
    · intro j e hj
      cases hj
    · intro l hl
      cases hl
    · intro l hl
      cases hl
  | add v hr ih => exact DMInv_AddValue ih v
  | move i hl hp hr ih => exact DMInv_moveNext ih hl hp
  | create hr ih => exact DMInv_CreateValueSource ih
  | remove i hr ih => exact DMInv_removeLocator ih i

/-- Sum of `f 0 + ... + f (n - 1)`. -/
def sumTo (f : Nat → Nat) : Nat → Nat
  | 0 => 0
  | n + 1 => sumTo f n + f n

theorem sumTo_congr {f g : Nat → Nat} {n : Nat} (h : ∀ j, j < n → f j = g j) :
    sumTo f n = sumTo g n := by
  induction n with
  | zero => rfl
  | succ n ih =>
    show sumTo f n + f n = sumTo g n + g n
    rw [ih (fun j hj => h j (by omega)), h n (by omega)]

theorem sumTo_zero_fn (m : Nat) : sumTo (fun _ => 0) m = 0 := by
  induction m with
  | zero => rfl
  | succ m ih =>
    show sumTo (fun _ => 0) m + 0 = 0
    rw [ih]

theorem sumTo_shift (f : Nat → Nat) (n : Nat) :
    sumTo f (n + 1) = f 0 + sumTo (fun j => f (j + 1)) n := by
  induction n with
  | zero =>
    show 0 + f 0 = f 0 + 0
    omega
  | succ n ih =>
    show sumTo f (n + 1) + f (n + 1) = f 0 + (sumTo (fun j => f (j + 1)) n + f (n + 1))
    rw [ih]
    omega

theorem sumTo_add (f g : Nat → Nat) (n : Nat) :
    sumTo (fun j => f j + g j) n = sumTo f n + sumTo g n := by
  induction n with
  | zero => rfl
  | succ n ih =>
    show sumTo (fun j => f j + g j) n + (f n + g n) = sumTo f n + f n + (sumTo g n + g n)
    rw [ih]
    omega

theorem sum_rcAt {V : Type} (vs : List (Entry V)) :
    (vs.map Prod.snd).sum = sumTo (rcAt vs) vs.length := by
  induction vs with
  | nil => rfl
  | cons e tl ih =>
    show e.2 + (tl.map Prod.snd).sum = sumTo (rcAt (e :: tl)) (tl.length + 1)
    rw [sumTo_shift]
    have hsh : sumTo (fun j => rcAt (e :: tl) (j + 1)) tl.length =
        sumTo (rcAt tl) tl.length := sumTo_congr (fun j _ => rfl)
    rw [hsh, ih]
    rfl

/-- Whether an (optional) cursor position denotes an entry with index below
`m`. -/
def posInRange (o : Option Nat) (m : Nat) : Bool :=
  match o with
  | some p => decide (p < m)
  | Option.none => false

theorem sumTo_indicator (o : Option Nat) (m : Nat) :
    sumTo (fun j => if o = some j then 1 else 0) m =
      if posInRange o m then 1 else 0 := by
  induction m with
  | zero => cases o <;> rfl
  | succ m ih =>
    show sumTo (fun j => if o = some j then 1 else 0) m + _ = _
    rw [ih]
    cases o with
    | none => simp [posInRange]
    | some p =>
      simp only [posInRange, Option.some.injEq]
      by_cases h1 : p < m
      · rw [if_pos (by simpa [posInRange] using h1), if_neg (by omega : ¬ p = m),
          if_pos (by simp; omega)]
      · by_cases h2 : p = m
        · rw [if_neg (by simpa [posInRange] using h1), if_pos h2, if_pos (by simp; omega)]
        · rw [if_neg (by simpa [posInRange] using h1), if_neg h2, if_neg (by simp; omega)]

theorem sum_countAt (ls : List Loc) (m : Nat) :
    sumTo (countAt ls) m = ls.countP (fun l => posInRange l.pos m) := by
  induction ls with
  | nil =>
    rw [List.countP_nil]
    have hz : ∀ j, j < m → countAt [] j = (fun _ => 0) j := fun j _ => rfl
    rw [sumTo_congr hz, sumTo_zero_fn]
  | cons l tl ih =>
    have hc : ∀ j, j < m → countAt (l :: tl) j =
        (fun j => countAt tl j + (if l.pos = some j then 1 else 0)) j :=
      fun j _ => countAt_cons l tl j
    rw [sumTo_congr hc, sumTo_add, ih, sumTo_indicator, List.countP_cons]

/-- C7: for every key, after every completed DataManager operation, the number
of cursors standing at some log entry equals the sum of the reference counters
stored in the log. -/
theorem C7_cursor_count_eq_refcount_sum {V : Type} {s : DM V} (h : DMReach s) :
    s.locators.countP (fun l => l.pos.isSome) = (s.values.map Prod.snd).sum := by
  have hi := DMInv_ofReach h
  rw [sum_rcAt]
  rw [sumTo_congr (fun j _ => hi.rc j)]
  rw [sum_countAt]
  apply List.countP_congr
  intro l hl
  cases hpl : l.pos with
  | none => simp [posInRange, hpl]
  | some p =>
    have := hi.posLt hl hpl
    simp [posInRange, hpl, this]

/-- Witness for C7 at a concrete reachable state: one cursor created and then
one value enqueued; the single cursor stands at the single entry whose counter
is 1. -/
theorem C7_cursor_count_eq_refcount_sum_witness :
    (AddValue (CreateValueSource (⟨[], [], 0, []⟩ : DM Nat)) 7).locators.countP
        (fun l => l.pos.isSome) =
      ((AddValue (CreateValueSource (⟨[], [], 0, []⟩ : DM Nat)) 7).values.map
        Prod.snd).sum :=
  C7_cursor_count_eq_refcount_sum (DMReach.add 7 (DMReach.create DMReach.init))

/-- The log of `DataManager::moveNext` after the counter updates and before
reclamation: the current entry's counter decremented and, when the cursor does
not reach the end, the next entry's counter incremented
(`DataManagerFavorSpeed.h` lines 387-392). -/
def moveNextUpdated {V : Type} (s : DM V) (p : Nat) : List (Entry V) :=
  if p + 1 < s.values.length then
    updateRC (updateRC s.values p (fun c => c - 1)) (p + 1) (fun c => c + 1)
  else updateRC s.values p (fun c => c - 1)

/-- C6: `moveNext` on a cursor standing at entry `E` (index `p`): `E`'s counter
is decremented; the cursor advances to the next entry (incrementing its
counter) or to past-the-end when `E` was last; then exactly the maximal prefix
of entries with all-zero counters is erased (so no entry with a positive
counter, nor any entry at or after the first such entry, is removed); the call
returns true iff the cursor still denotes an entry. -/
theorem C6_moveNext_semantics {V : Type} (s : DM V) (i : Nat) (l : Loc) (p : Nat)
    (hl : s.locators.get? i = some l) (hp : l.pos = some p)
    (hlt : p < s.values.length) :
    (moveNext s i).2 = decide (p + 1 < s.values.length) ∧
    rcAt (moveNextUpdated s p) p = rcAt s.values p - 1 ∧
    (p + 1 < s.values.length →
      rcAt (moveNextUpdated s p) (p + 1) = rcAt s.values (p + 1) + 1) ∧
    (moveNext s i).1.values =
      (moveNextUpdated s p).drop (leadZeros (moveNextUpdated s p)) ∧
    (∀ j, j < leadZeros (moveNextUpdated s p) → rcAt (moveNextUpdated s p) j = 0) ∧
    (leadZeros (moveNextUpdated s p) = (moveNextUpdated s p).length ∨
      rcAt (moveNextUpdated s p) (leadZeros (moveNextUpdated s p)) ≠ 0) ∧
    (moveNext s i).1.locators.get? i =
      some ⟨if p + 1 < s.values.length
            then some (p + 1 - leadZeros (moveNextUpdated s p))
            else Option.none,
            l.birth⟩ ∧
    (moveNext s i).2 = hasValueAt (moveNext s i).1 i := by
  by_cases h2 : p + 1 < s.values.length
  · have hupd : moveNextUpdated s p =
        updateRC (updateRC s.values p (fun c => c - 1)) (p + 1) (fun c => c + 1) := by
      unfold moveNextUpdated
      rw [if_pos h2]
    have hred : moveNext s i =
        (collectUnusedValues
          { s with
            values := updateRC (updateRC s.values p (fun c => c - 1)) (p + 1)
              (fun c => c + 1)
            locators := s.locators.set i { l with pos := some (p + 1) } },
         true) := by
      unfold moveNext
      rw [hl]
      simp [hp, h2]
    have hloc : (moveNext s i).1.locators.get? i =
        some ⟨some (p + 1 - leadZeros (moveNextUpdated s p)), l.birth⟩ := by
      rw [hred, collectUnusedValues_def]
      dsimp only
      rw [List.get?_map, List.get?_set_eq, hl]
      rw [hupd]
      rfl
    refine ⟨?_, ?_, ?_, ?_, ?_, ?_, ?_, ?_⟩
    · rw [hred]
      simp [h2]
    · rw [hupd, rcAt_updateRC_ne (by omega), rcAt_updateRC_self hlt]
    · intro _
      rw [hupd, rcAt_updateRC_self (by rw [updateRC_length]; omega),
        rcAt_updateRC_ne (by omega)]
    · rw [hred, collectUnusedValues_def]
      dsimp only
      rw [hupd]
    · intro j hj
      exact rcAt_lt_leadZeros hj
    · exact leadZeros_maximal _
    · rw [hloc, if_pos h2]
    · rw [hred]
      unfold hasValueAt
      rw [show ((collectUnusedValues
          { s with
            values := updateRC (updateRC s.values p (fun c => c - 1)) (p + 1)
              (fun c => c + 1)
            locators := s.locators.set i { l with pos := some (p + 1) } },
          true) : DM V × Bool).1.locators.get? i =
        some ⟨some (p + 1 - leadZeros (moveNextUpdated s p)), l.birth⟩ from by
          rw [← hred]; exact hloc]
      simp
  · have hupd : moveNextUpdated s p = updateRC s.values p (fun c => c - 1) := by
      unfold moveNextUpdated
      rw [if_neg h2]
    have hred : moveNext s i =
        (collectUnusedValues
          { s with
            values := updateRC s.values p (fun c => c - 1)
            locators := s.locators.set i { l with pos := Option.none } },
         false) := by
      unfold moveNext
      rw [hl]
      simp [hp, h2]
    have hloc : (moveNext s i).1.locators.get? i =
        some ⟨Option.none, l.birth⟩ := by
      rw [hred, collectUnusedValues_def]
      dsimp only
      rw [List.get?_map, List.get?_set_eq, hl]
      rfl
    refine ⟨?_, ?_, ?_, ?_, ?_, ?_, ?_, ?_⟩
    · rw [hred]
      simp [h2]
    · rw [hupd, rcAt_updateRC_self hlt]
    · intro hc
      exact absurd hc h2
    · rw [hred, collectUnusedValues_def]
      dsimp only
      rw [hupd]
    · intro j hj
      exact rcAt_lt_leadZeros hj
    · exact leadZeros_maximal _
    · rw [hloc, if_neg h2]
    · rw [hred]
      unfold hasValueAt
      rw [show ((collectUnusedValues
          { s with
            values := updateRC s.values p (fun c => c - 1)
            locators := s.locators.set i { l with pos := Option.none } },
          false) : DM V × Bool).1.locators.get? i =
        some ⟨Option.none, l.birth⟩ from by
          rw [← hred]; exact hloc]
      simp

/-- Witness for C6 at a concrete state: a two-entry log, the cursor on the
first entry; `moveNext` decrements it to zero, advances, increments the second
entry, reclaims the first, and returns true. -/
theorem C6_moveNext_semantics_witness :
    (moveNext (⟨[(5, 1), (7, 0)], [⟨some 0, 0⟩], 0, [5, 7]⟩ : DM Nat) 0).2 =
        decide (0 + 1 < 2) ∧
      rcAt (moveNextUpdated (⟨[(5, 1), (7, 0)], [⟨some 0, 0⟩], 0, [5, 7]⟩ : DM Nat) 0) 0 =
        rcAt [(5, 1), (7, 0)] 0 - 1 ∧
      (0 + 1 < 2 →
        rcAt (moveNextUpdated (⟨[(5, 1), (7, 0)], [⟨some 0, 0⟩], 0, [5, 7]⟩ : DM Nat) 0)
          (0 + 1) = rcAt [(5, 1), (7, 0)] (0 + 1) + 1) ∧
      (moveNext (⟨[(5, 1), (7, 0)], [⟨some 0, 0⟩], 0, [5, 7]⟩ : DM Nat) 0).1.values =
        (moveNextUpdated (⟨[(5, 1), (7, 0)], [⟨some 0, 0⟩], 0, [5, 7]⟩ : DM Nat) 0).drop
          (leadZeros (moveNextUpdated (⟨[(5, 1), (7, 0)], [⟨some 0, 0⟩], 0, [5, 7]⟩ : DM Nat) 0)) ∧
      (∀ j, j < leadZeros (moveNextUpdated (⟨[(5, 1), (7, 0)], [⟨some 0, 0⟩], 0, [5, 7]⟩ : DM Nat) 0) →
        rcAt (moveNextUpdated (⟨[(5, 1), (7, 0)], [⟨some 0, 0⟩], 0, [5, 7]⟩ : DM Nat) 0) j = 0) ∧
      (leadZeros (moveNextUpdated (⟨[(5, 1), (7, 0)], [⟨some 0, 0⟩], 0, [5, 7]⟩ : DM Nat) 0) =
          (moveNextUpdated (⟨[(5, 1), (7, 0)], [⟨some 0, 0⟩], 0, [5, 7]⟩ : DM Nat) 0).length ∨
        rcAt (moveNextUpdated (⟨[(5, 1), (7, 0)], [⟨some 0, 0⟩], 0, [5, 7]⟩ : DM Nat) 0)
          (leadZeros (moveNextUpdated (⟨[(5, 1), (7, 0)], [⟨some 0, 0⟩], 0, [5, 7]⟩ : DM Nat) 0)) ≠ 0) ∧
      (moveNext (⟨[(5, 1), (7, 0)], [⟨some 0, 0⟩], 0, [5, 7]⟩ : DM Nat) 0).1.locators.get? 0 =
        some ⟨if 0 + 1 < 2
              then some (0 + 1 -
                leadZeros (moveNextUpdated (⟨[(5, 1), (7, 0)], [⟨some 0, 0⟩], 0, [5, 7]⟩ : DM Nat) 0))
              else Option.none,
              0⟩ ∧
      (moveNext (⟨[(5, 1), (7, 0)], [⟨some 0, 0⟩], 0, [5, 7]⟩ : DM Nat) 0).2 =
        hasValueAt (moveNext (⟨[(5, 1), (7, 0)], [⟨some 0, 0⟩], 0, [5, 7]⟩ : DM Nat) 0).1 0 :=
  C6_moveNext_semantics (⟨[(5, 1), (7, 0)], [⟨some 0, 0⟩], 0, [5, 7]⟩ : DM Nat) 0
    ⟨some 0, 0⟩ 0 rfl rfl (by decide)

/-- C8: a cursor created by `CreateValueSource` is born at past-the-end of the
log regardless of its contents and touches no counter; consequently its view is
empty at creation, the very next `AddValue` becomes visible to it, and (third
group, via the ghost history of any reachable state) every value a cursor can
read lies at a history index at or after the cursor's birth point, so a value
enqueued before the subscription is never delivered through that cursor. -/
theorem C8_new_cursor_sees_only_later_values {V : Type} (s s' : DM V)
    (hs' : DMReach s') :
    ((CreateValueSource s).values = s.values ∧
      (CreateValueSource s).locators = s.locators ++ [⟨Option.none, s.hist.length⟩] ∧
      hasValueAt (CreateValueSource s) s.locators.length = false) ∧
    (∀ v i l, s.locators.get? i = some l → l.pos = Option.none →
      getValueAt (AddValue s v) i = some v) ∧
    (∀ i l, s'.locators.get? i = some l → ∀ v, getValueAt s' i = some v →
      ∃ m, l.birth ≤ m ∧ s'.hist.get? m = some v) := by
  refine ⟨⟨rfl, rfl, ?_⟩, ?_, ?_⟩
  · unfold hasValueAt
    rw [CreateValueSource_def]
    dsimp only
    rw [List.get?_concat_length]
    rfl
  · intro v i l hl hpos
    unfold getValueAt
    rw [AddValue_def]
    dsimp only
    rw [List.get?_map, hl, Option.map_some']
    rw [if_pos hpos]
    show ((s.values ++ [(v, advancedCount s)]).get? s.values.length).map Prod.fst = some v
    rw [List.get?_concat_length]
    rfl
  · intro i l hl v hv
    have hi := DMInv_ofReach hs'
    have hmem : l ∈ s'.locators := List.get?_mem hl
    unfold getValueAt at hv
    rw [hl, Option.some_bind] at hv
    cases hpos : l.pos with
    | none =>
      rw [hpos] at hv
      simp at hv
    | some p =>
      rw [hpos, Option.some_bind] at hv
      cases hval : s'.values.get? p with
      | none =>
        rw [hval] at hv
        simp at hv
      | some e =>
        rw [hval] at hv
        simp at hv
        refine ⟨s'.dropped + p, hi.birthLe l hmem p hpos, ?_⟩
        rw [← hv]
        exact hi.ghostVal _ _ hval

/-- Witness for C8: instantiated at a manager whose log already holds one
value, and at the reachable state made of one cursor plus one later value. -/
theorem C8_new_cursor_sees_only_later_values_witness :
    (((CreateValueSource (⟨[(3, 0)], [], 0, [3]⟩ : DM Nat)).values =
        (⟨[(3, 0)], [], 0, [3]⟩ : DM Nat).values ∧
      (CreateValueSource (⟨[(3, 0)], [], 0, [3]⟩ : DM Nat)).locators =
        (⟨[(3, 0)], [], 0, [3]⟩ : DM Nat).locators ++ [⟨Option.none, 1⟩] ∧
      hasValueAt (CreateValueSource (⟨[(3, 0)], [], 0, [3]⟩ : DM Nat)) 0 = false) ∧
    (∀ v i l, (⟨[(3, 0)], [], 0, [3]⟩ : DM Nat).locators.get? i = some l →
      l.pos = Option.none →
      getValueAt (AddValue (⟨[(3, 0)], [], 0, [3]⟩ : DM Nat) v) i = some v) ∧
    (∀ i l,
      (AddValue (CreateValueSource (⟨[], [], 0, []⟩ : DM Nat)) 42).locators.get? i =
        some l →
      ∀ v,
        getValueAt (AddValue (CreateValueSource (⟨[], [], 0, []⟩ : DM Nat)) 42) i =
          some v →
      ∃ m, l.birth ≤ m ∧
        (AddValue (CreateValueSource (⟨[], [], 0, []⟩ : DM Nat)) 42).hist.get? m =
          some v)) :=
  C8_new_cursor_sees_only_later_values (⟨[(3, 0)], [], 0, [3]⟩ : DM Nat)
    (AddValue (CreateValueSource (⟨[], [], 0, []⟩ : DM Nat)) 42)
    (DMReach.add 42 (DMReach.create DMReach.init))

/-- C5 counterexample: a manager whose single registered cursor stands at the
(still referenced) first entry. `AddValue` advances nothing, yet the hook
snapshot `locatorsForUpdate = m_locators` contains that cursor, so its
wake-up hook is invoked although it was not advanced — contradicting "for no
cursor that was not advanced". -/
theorem C5_hook_fires_for_unadvanced_cursor :
    (0 ∈ notifiedLocators (⟨[(5, 1)], [⟨some 0, 0⟩], 0, [5]⟩ : DM Nat)) ∧
    (0 ∉ advancedLocators (⟨[(5, 1)], [⟨some 0, 0⟩], 0, [5]⟩ : DM Nat)) := by
  decide

/-- C5 amended: `AddValue` advances exactly the cursors standing past the end
(each advanced cursor moves to the new entry, whose counter ends up equal to
the number of advanced cursors, all other entries and cursors untouched), but
the wake-up hook is invoked exactly once for every registered cursor —
advanced or not — in registration order. -/
theorem C5_advanced_set_and_hook_set {V : Type} (s : DM V) (v : V) :
    notifiedLocators s = List.range s.locators.length ∧
    (∀ i, i ∈ advancedLocators s ↔
      ∃ l, s.locators.get? i = some l ∧ l.pos = Option.none) ∧
    rcAt (AddValue s v).values s.values.length = advancedCount s ∧
    (∀ j, j < s.values.length → rcAt (AddValue s v).values j = rcAt s.values j) ∧
    (∀ i l, s.locators.get? i = some l → l.pos = Option.none →
      (AddValue s v).locators.get? i = some ⟨some s.values.length, l.birth⟩) ∧
    (∀ i l, s.locators.get? i = some l → ¬ l.pos = Option.none →
      (AddValue s v).locators.get? i = some l) := by
  refine ⟨rfl, ?_, ?_, ?_, ?_, ?_⟩
  · intro i
    unfold advancedLocators
    rw [List.mem_filter, List.mem_range]
    constructor
    · intro ⟨hilt, hpred⟩
      cases hg : s.locators.get? i with
      | none =>
        rw [hg] at hpred
        cases hpred
      | some l =>
        rw [hg] at hpred
        refine ⟨l, rfl, ?_⟩
        cases hpl : l.pos with
        | none => rfl
        | some q =>
          rw [Option.map_some'] at hpred
          simp [hpl] at hpred
    · intro ⟨l, hg, hpl⟩
      have hilt : i < s.locators.length := by
        by_contra hc
        rw [List.get?_eq_none.mpr (by omega)] at hg
        cases hg
      refine ⟨hilt, ?_⟩
      rw [hg, Option.map_some', hpl]
      rfl
  · rw [AddValue_def]
    dsimp only
    exact rcAt_append_self s.values (v, advancedCount s)
  · intro j hj
    rw [AddValue_def]
    dsimp only
    exact rcAt_append_left hj
  · intro i l hl hpos
    rw [AddValue_def]
    dsimp only
    rw [List.get?_map, hl, Option.map_some', if_pos hpos]
  · intro i l hl hpos
    rw [AddValue_def]
    dsimp only
    rw [List.get?_map, hl, Option.map_some', if_neg hpos]

/-- Witness for C5's amended statement: with one past-the-end cursor, the
enqueued value lands in a fresh entry and the cursor is advanced onto it. -/
theorem C5_advanced_set_and_hook_set_witness :
    (AddValue (⟨[], [⟨Option.none, 0⟩], 0, []⟩ : DM Nat) 9).locators.get? 0 =
      some ⟨some 0, 0⟩ :=
  (C5_advanced_set_and_hook_set (⟨[], [⟨Option.none, 0⟩], 0, []⟩ : DM Nat) 9).2.2.2.2.1
    0 ⟨Option.none, 0⟩ rfl rfl

/-- A Value instrumented with the number of copy constructions its payload has
undergone. -/
structure CVal where
  payload : Nat
  copies : Nat
deriving DecidableEq, Repr

/-- The C++ copy constructor of a Value: payload preserved, copy counter
incremented. A move leaves the counter unchanged. -/
def copyOf (v : CVal) : CVal :=
  { v with copies := v.copies + 1 }

/-- The enqueue path for a subscribed key: `MultiQueueProcessor::Enqueue`
forwards the value with `std::forward<TValue>(value)` into
`DataManager::AddValue`, whose `m_values.emplace_back(std::forward<TValue>(value), 0)`
constructs the stored Value — by copy when the argument is an lvalue, by move
when it is an rvalue. No other statement on the path constructs a Value. -/
def Enqueue (s : DM CVal) (v : CVal) (isLvalue : Bool) : DM CVal :=
  AddValue s (if isLvalue then copyOf v else v)

/-- C2: a single enqueue stores exactly one new entry, performing exactly one
copy construction when the argument is an lvalue and none when it is an
rvalue, independent of the number `N` of subscribed cursors (the state `s` is
arbitrary, hence any `N`); no existing entry is touched, and every cursor that
stood past the end now reads that one stored instance. -/
theorem C2_single_copy_per_enqueue (s : DM CVal) (v : CVal) (isLvalue : Bool) :
    (Enqueue s v isLvalue).values.get? s.values.length =
      some (⟨v.payload, v.copies + (if isLvalue then 1 else 0)⟩, advancedCount s) ∧
    (Enqueue s v isLvalue).values.length = s.values.length + 1 ∧
    (∀ j, j < s.values.length →
      (Enqueue s v isLvalue).values.get? j = s.values.get? j) ∧
    (∀ i l, s.locators.get? i = some l → l.pos = Option.none →
      getValueAt (Enqueue s v isLvalue) i =
        some ⟨v.payload, v.copies + (if isLvalue then 1 else 0)⟩) := by
  have hstored : (if isLvalue then copyOf v else v) =
      ⟨v.payload, v.copies + (if isLvalue then 1 else 0)⟩ := by
    cases isLvalue <;> simp [copyOf]
  refine ⟨?_, ?_, ?_, ?_⟩
  · unfold Enqueue
    rw [AddValue_def]
    dsimp only
    rw [List.get?_concat_length, hstored]
  · unfold Enqueue
    rw [AddValue_def]
    simp
  · intro j hj
    unfold Enqueue
    rw [AddValue_def]
    dsimp only
    rw [List.get?_append hj]
  · intro i l hl hpos
    unfold Enqueue getValueAt
    rw [AddValue_def]
    dsimp only
    rw [List.get?_map, hl, Option.map_some', if_pos hpos]
    show (((s.values ++ [((if isLvalue then copyOf v else v), advancedCount s)]).get?
      s.values.length).map Prod.fst) = _
    rw [List.get?_concat_length, hstored]
    rfl

/-- Witness for C2: two cursors past the end, one lvalue enqueue: one stored
entry with one copy, read by both cursors. -/
theorem C2_single_copy_per_enqueue_witness :
    getValueAt (Enqueue (⟨[], [⟨Option.none, 0⟩, ⟨Option.none, 0⟩], 0, []⟩ : DM CVal)
      ⟨4, 0⟩ true) 1 = some ⟨4, 0 + (if true then 1 else 0)⟩ :=
  (C2_single_copy_per_enqueue
      (⟨[], [⟨Option.none, 0⟩, ⟨Option.none, 0⟩], 0, []⟩ : DM CVal) ⟨4, 0⟩ true).2.2.2
    1 ⟨Option.none, 0⟩ rfl rfl

/-- Whole-system state for one consumer subscribed to one key, composed from
the embedded components: the per-key DataManager, the consumer's processor
fields (`m_state`, `m_tasks`, the latter as task ids whose shared token is the
subscription's cancellation cell), the tasks posted to the thread pool and not
yet executed, the values delivered to the consumer so far, and a fresh-id
counter for created tasks. -/
structure Sys where
  dm : DM Nat
  pstate : EState
  ptasks : List Nat
  cancel : CancelCell
  pool : List Nat
  delivered : List Nat
  nextId : Nat
deriving DecidableEq, Repr

/-- Taken from `ConsumerProcessor::onNewValueAvailable`: return if the token is
cancelled; otherwise create a task (its body reads the cursor when it runs);
under the lock, queue it on `m_tasks` when `processing`, else become
`processing` and post it to the pool. -/
def sysOnNewValueAvailable (s : Sys) : Sys :=
  if CancellationToken.IsCancellationRequested s.cancel then s
  else if s.pstate = EState.processing then
    { s with ptasks := s.ptasks ++ [s.nextId], nextId := s.nextId + 1 }
  else
    { s with pstate := EState.processing, pool := s.pool ++ [s.nextId],
             nextId := s.nextId + 1 }

/-- Taken from `MultiQueueProcessor::Enqueue` on a subscribed key:
`DataManager::AddValue` appends and advances under the lock, then invokes the
`onNewValueAvailable` hook once per snapshot locator (the whole of
`m_locators` in this revision); each hook runs the processor handler of the
single consumer. -/
def sysEnqueue (s : Sys) (v : Nat) : Sys :=
  (notifiedLocators s.dm).foldl (fun acc _ => sysOnNewValueAvailable acc)
    { s with dm := AddValue s.dm v }

/-- Taken from the tail of every task: `onValueProcessed`, with each queued
task's token examined at that moment (all tasks of this subscription share the
one token). -/
def sysComplete (s : Sys) : Sys :=
  let tok := CancellationToken.IsCancellationRequested s.cancel
  let r := onValueProcessed (s.ptasks.map (fun t => (t, tok)))
  { s with
    ptasks := r.remaining.map Prod.fst
    pstate := r.state
    pool := s.pool ++ r.posted.toList }

/-- Taken from the task body built by `ConsumerProcessor::createTask`: run one
posted task to completion: if its token is not cancelled and the (single)
value source still has a value, consume the front value and `MoveNext`; then
call `onValueProcessed`. -/
def sysRunTask (s : Sys) : Sys :=
  match s.pool with
  | [] => s
  | _ :: rest =>
    let s1 := { s with pool := rest }
    let s2 :=
      if CancellationToken.IsCancellationRequested s1.cancel then s1
      else if hasValueAt s1.dm 0 then
        match getValueAt s1.dm 0 with
        | some v =>
          { s1 with dm := (moveNext s1.dm 0).1, delivered := s1.delivered ++ [v] }
        | Option.none => s1
      else s1
    sysComplete s2

/-- The system right after `Subscribe`: one cursor born past the end, the
processor `free` with empty queues, the subscription's token source alive and
not cancelled. -/
def sysInit : Sys :=
  { dm := CreateValueSource ⟨[], [], 0, []⟩
    pstate := EState.free
    ptasks := []
    cancel := ⟨false, false⟩
    pool := []
    delivered := []
    nextId := 0 }

/-- The schedule exhibited against C1: subscribe, enqueue 10, enqueue 20 (both
before the first task runs), then run the single posted task to completion —
a legal sequential interleaving of the real system. -/
def sysC1Run : Sys :=
  sysRunTask (sysEnqueue (sysEnqueue sysInit 10) 20)

/-- C1: in the exhibited interleaving the system ends quiescent — empty pool,
empty pending queue, processor `free` — having delivered only `[10]` although
`[10, 20]` was enqueued after the subscription and nothing was cancelled or
unsubscribed: the completion handler popped the pending task for 20 and then
dropped it because the queue had become empty, so value 20 is lost and the
delivered sequence is not the enqueued sequence. -/
theorem C1_exhibit_lost_value :
    sysC1Run.delivered = [10] ∧
    sysC1Run.dm.hist = [10, 20] ∧
    sysC1Run.pool = [] ∧
    sysC1Run.ptasks = [] ∧
    sysC1Run.pstate = EState.free ∧
    sysC1Run.cancel = ⟨false, false⟩ ∧
    sysC1Run.dm.values = [(20, 1)] := by
  decide

/-- Per-key entry of `MultiQueueProcessor::m_dataManagers`: the key's
DataManager and the subscriber deque; subscribers are consumer ids
(`shared_ptr` identities), and the `i`-th subscriber in registration order owns
the `i`-th registered locator of the DataManager. -/
structure KeyEntry (V : Type) where
  dm : DM V
  owners : List Nat
deriving DecidableEq, Repr

/-- `MultiQueueProcessor` registry state: `m_consumerProcessors` (consumer id,
with the key set of its `m_valueSources` map) and `m_dataManagers`
(key to (DataManager, subscriber deque)). -/
structure Registry (K V : Type) where
  consumerProcessors : List (Nat × List K)
  dataManagers : List (K × KeyEntry V)
deriving DecidableEq, Repr

/-- Taken from `MultiQueueProcessor::Unsubscribe` (MultiQueueProcessor.h lines
183-226): look up the consumer's processor (absent: return), then the key's
entry (absent: return); if the consumer is not in the key's subscriber deque,
`assert(false)` and return (the Bool result records whether that assertion
fired); otherwise erase the subscriber, drop the key when its deque empties,
stop and tear down the consumer's cursor (`RemoveSubscription`), and drop the
processor when it has no subscriptions left. -/
def Unsubscribe {K V : Type} [DecidableEq K] (r : Registry K V) (k : K) (c : Nat) :
    Registry K V × Bool :=
  match r.consumerProcessors.find? (fun e => e.1 = c) with
  | Option.none => (r, false)
  | some proc =>
    match r.dataManagers.find? (fun e => e.1 = k) with
    | Option.none => (r, false)
    | some ke =>
      match ke.2.owners.findIdx? (fun o => o = c) with
      | Option.none => (r, true)
      | some idx =>
        let owners1 := ke.2.owners.eraseIdx idx
        let dm1 := removeLocator ke.2.dm idx
        let dataManagers1 :=
          if owners1.isEmpty then r.dataManagers.eraseP (fun e => e.1 = k)
          else r.dataManagers.map
            (fun e => if e.1 = k then (e.1, ⟨dm1, owners1⟩) else e)
        let keys1 := proc.2.eraseP (fun q => q = k)
        let consumerProcessors1 :=
          if keys1.isEmpty then r.consumerProcessors.eraseP (fun e => e.1 = c)
          else r.consumerProcessors.map (fun e => if e.1 = c then (e.1, keys1) else e)
        ({ consumerProcessors := consumerProcessors1
           dataManagers := dataManagers1 }, false)

/-- A concrete registry: consumer 1 has a processor (subscribed to key 2 only)
and key 5 exists with subscriber 3 only, so (key 5, consumer 1) is not a
current subscription. -/
def regC9 : Registry Nat Nat :=
  { consumerProcessors := [(1, [2])]
    dataManagers := [(5, ⟨⟨[], [⟨Option.none, 0⟩], 0, []⟩, [3]⟩)] }

/-- C9 counterexample: `Unsubscribe(5, 1)` on `regC9` — both the consumer and
the key exist but the pair is not subscribed — leaves the state unchanged but
hits `assert(false)` (result flag true), so the call is not free of raised
assertions as the claim states. -/
theorem C9_assert_fires_when_pair_unknown :
    (Unsubscribe regC9 5 1).2 = true ∧ (Unsubscribe regC9 5 1).1 = regC9 := by
  decide

/-- C9 amended: `Unsubscribe` on a (key, consumer) pair that is not currently
subscribed leaves the entire registry unchanged; it is silent when the
consumer has no processor or the key has no entry, but when both exist and the
consumer is missing from the key's subscriber deque a debug assertion
(`assert(false)`) fires before the unchanged return. -/
theorem C9_unsubscribe_unknown_pair_is_noop {K V : Type} [DecidableEq K]
    (r : Registry K V) (k : K) (c : Nat)
    (h : ∀ e ∈ r.dataManagers, e.1 = k → c ∉ e.2.owners) :
    (Unsubscribe r k c).1 = r ∧
    ((Unsubscribe r k c).2 = true ↔
      (∃ e ∈ r.consumerProcessors, e.1 = c) ∧ ∃ e ∈ r.dataManagers, e.1 = k) := by
  unfold Unsubscribe
  cases hf1 : r.consumerProcessors.find? (fun e => e.1 = c) with
  | none =>
    have hnone := List.find?_eq_none.mp hf1
    refine ⟨rfl, ?_, ?_⟩
    · intro hc
      simp at hc
    · intro ⟨⟨e, he, hec⟩, _⟩
      have := hnone e he
      simp [hec] at this
  | some proc =>
    have hcmem := List.mem_of_find?_eq_some hf1
    have hceq : proc.1 = c := by simpa using List.find?_some hf1
    cases hf2 : r.dataManagers.find? (fun e => e.1 = k) with
    | none =>
      have hnone := List.find?_eq_none.mp hf2
      refine ⟨rfl, ?_, ?_⟩
      · intro hc
        simp at hc
      · intro ⟨_, ⟨e, he, hek⟩⟩
        have := hnone e he
        simp [hek] at this
    | some ke =>
      have hkmem := List.mem_of_find?_eq_some hf2
      have hkeq : ke.1 = k := by simpa using List.find?_some hf2
      have hno : ke.2.owners.findIdx? (fun o => o = c) = Option.none := by
        rw [List.findIdx?_eq_none_iff]
        intro x hx
        have hxc : ¬ (x = c) := by
          intro hxc
          subst hxc
          exact (h ke hkmem hkeq) hx
        simp [hxc]
      dsimp only
      rw [hno]
      refine ⟨rfl, ?_, ?_⟩
      · intro _
        exact ⟨⟨proc, hcmem, hceq⟩, ⟨ke, hkmem, hkeq⟩⟩
      · intro _
        rfl

/-- Witness for C9's amended statement, at the concrete registry `regC9`. -/
theorem C9_unsubscribe_unknown_pair_is_noop_witness :
    (Unsubscribe regC9 5 1).1 = regC9 ∧
    ((Unsubscribe regC9 5 1).2 = true ↔
      (∃ e ∈ regC9.consumerProcessors, e.1 = 1) ∧
      ∃ e ∈ regC9.dataManagers, e.1 = 5) :=
  C9_unsubscribe_unknown_pair_is_noop regC9 5 1 (by decide)

end MQP
